import Mathlib

/-!
Verification of the markdown-conversion pipeline of the JSON-converter
repository.  The definitions below are a shallow embedding of the Python
source: strings are `String` (lists of characters), each `re.sub` call of
the source is modelled by a dedicated scanner with the exact leftmost,
non-greedy, backtracking semantics of the pattern it implements, and the
line-based phases (LaTeX escaping, HTML paragraphs, docx run splitting,
H1 segmentation) are modelled over the line lists produced by splitting
on the newline character, as the source does.
-/

abbrev Chars := List Char

/-- Python `\s` on the characters this development uses. -/
def isPySpace (c : Char) : Bool :=
  c == ' ' || c == '\t' || c == '\n' || c == '\r' || c == '\x0b' || c == '\x0c'

/-- Python `str.split('\n')`: every newline separates, empty pieces kept. -/
def splitNlChars : Chars → List Chars
  | [] => [[]]
  | c :: cs =>
    if c = '\n' then [] :: splitNlChars cs
    else
      match splitNlChars cs with
      | [] => [[c]]
      | p :: ps => (c :: p) :: ps

/-- Python `'\n'.join(...)`. -/
def joinNlChars : List Chars → Chars
  | [] => []
  | [p] => p
  | p :: ps => p ++ '\n' :: joinNlChars ps

/-- Python `str.strip()` restricted to the whitespace characters above. -/
def pyStripChars (l : Chars) : Chars :=
  ((l.dropWhile isPySpace).reverse.dropWhile isPySpace).reverse

/-- `line.startswith('# ')` of the source. -/
def isH1 (l : Chars) : Bool := ['#', ' '].isPrefixOf l

/-! ## Inline-pattern matchers (one per regular expression of the source) -/

/-- Non-greedy inner text for `d(.+?)d`: at least one non-newline character,
closed by the first later occurrence of `d`. -/
def scanInner1 (d : Char) : Chars → Chars → Option (Chars × Chars)
  | _, [] => none
  | acc, c :: cs =>
    if acc ≠ [] ∧ c = d then some (acc.reverse, cs)
    else if c = '\n' then none
    else scanInner1 d (c :: acc) cs

/-- Non-greedy inner text for `dd(.+?)dd` (bold): at least one non-newline
character, closed by the first later occurrence of `dd`. -/
def scanInner2 (d : Char) : Chars → Chars → Option (Chars × Chars)
  | acc, c1 :: c2 :: cs =>
    if acc ≠ [] ∧ c1 = d ∧ c2 = d then some (acc.reverse, cs)
    else if c1 = '\n' then none
    else scanInner2 d (c1 :: acc) (c2 :: cs)
  | _, _ => none

/-- Inner text for `d([^d]+?)d(?!d)`: non-`d` characters (newline allowed),
closing `d` must not be followed by another `d`. -/
def scanItalLA (d : Char) : Chars → Chars → Option (Chars × Chars)
  | _, [] => none
  | acc, c :: cs =>
    if c = d then
      if acc ≠ [] ∧ cs.head? ≠ some d then some (acc.reverse, cs) else none
    else scanItalLA d (c :: acc) cs

/-- `\*\*(.+?)\*\*|__(.+?)__` at the current position. -/
def matchBold : Chars → Option (Chars × Chars)
  | c1 :: c2 :: cs =>
    if c1 = '*' ∧ c2 = '*' then scanInner2 '*' [] cs
    else if c1 = '_' ∧ c2 = '_' then scanInner2 '_' [] cs
    else none
  | _ => none

/-- `\*(.+?)\*|_(.+?)_` at the current position (plain-text italics). -/
def matchItalPlain : Chars → Option (Chars × Chars)
  | [] => none
  | c :: cs =>
    if c = '*' then scanInner1 '*' [] cs
    else if c = '_' then scanInner1 '_' [] cs
    else none

/-- `(?<!\*)\*([^*]+?)\*(?!\*)|(?<!_)_([^_]+?)_(?!_)` at the current
position; `prev` is the character before the position. -/
def matchItalLA (prev : Option Char) : Chars → Option (Chars × Chars)
  | [] => none
  | c :: cs =>
    if c = '*' then (if prev = some '*' then none else scanItalLA '*' [] cs)
    else if c = '_' then (if prev = some '_' then none else scanItalLA '_' [] cs)
    else none

/-- Inline code `` `(.+?)` `` at the current position. -/
def matchCode : Chars → Option (Chars × Chars)
  | [] => none
  | c :: cs => if c = '`' then scanInner1 '`' [] cs else none

/-- Label part of `\[(.+?)\]\((.+?)\)` with backtracking: a `](` that is not
followed by a closable `(...)` is swallowed by the label. -/
def scanLabel : Chars → Chars → Option (Chars × Chars × Chars)
  | _, [] => none
  | acc, c :: cs =>
    if c = ']' ∧ acc ≠ [] ∧ cs.head? = some '(' then
      match scanInner1 ')' [] cs.tail with
      | some (url, rest) => some (acc.reverse, url, rest)
      | none => scanLabel (c :: acc) cs
    else if c = '\n' then none
    else scanLabel (c :: acc) cs

/-- `\[(.+?)\]\((.+?)\)` at the current position. -/
def matchLink : Chars → Option (Chars × Chars × Chars)
  | [] => none
  | c :: cs => if c = '[' then scanLabel [] cs else none

/-- Drop through the first newline. -/
def dropToNl : Chars → Option Chars
  | [] => none
  | c :: cs => if c = '\n' then some cs else dropToNl cs

/-- First occurrence of a newline followed by three backticks. -/
def findFenceClose : Chars → Chars → Option (Chars × Chars)
  | _, [] => none
  | acc, c :: cs =>
    if c = '\n' ∧ cs.take 3 = ['`', '`', '`'] then some (acc.reverse, cs.drop 3)
    else findFenceClose (c :: acc) cs

/-- ```` ```.*?\n(.*?)\n``` ```` with DOTALL at the current position. -/
def matchFence (l : Chars) : Option (Chars × Chars) :=
  if l.take 3 = ['`', '`', '`'] then
    match dropToNl (l.drop 3) with
    | some afterNl => findFenceClose [] afterNl
    | none => none
  else none

/-- End part of the heading pattern: group `(.+)$` after `\s+` has greedily
consumed the whitespace run `w`; `r1` is what follows the run.  When `r1` is
empty, `\s+` backtracks inside `w`. -/
def headingTail (w r1 : Chars) : Option (Chars × Chars) :=
  if r1.isEmpty then
    let k := w.length - (w.reverse.takeWhile (fun c => c == '\n')).length
    if k < 2 then none
    else some ((w.drop (k - 1)).take 1, w.drop k)
  else some (r1.takeWhile (fun c => c != '\n'), r1.dropWhile (fun c => c != '\n'))

/-- `^#{1,6}\s+(.+)$` with MULTILINE at a line-start position, including the
backtracking of the greedy `\s+` run when the string ends in whitespace. -/
def matchHeadingPlain (l : Chars) : Option (Chars × Chars) :=
  let n := (l.takeWhile (fun c => c == '#')).length
  if n = 0 ∨ 6 < n then none
  else
    let w := (l.drop n).takeWhile isPySpace
    if w.isEmpty then none
    else headingTail w ((l.drop n).drop w.length)

/-! ## Substitution scanners (fuel-indexed; each step consumes at least one
input character, so fuel equal to the input length is always sufficient) -/

def subHeadingPlain : Nat → Bool → Chars → Chars
  | 0, _, l => l
  | _ + 1, _, [] => []
  | fuel + 1, atStart, c :: cs =>
    if atStart then
      match matchHeadingPlain (c :: cs) with
      | some (g, rest) => g ++ subHeadingPlain fuel false rest
      | none => c :: subHeadingPlain fuel (c == '\n') cs
    else c :: subHeadingPlain fuel (c == '\n') cs

def subBold (repl : Chars → Chars) : Nat → Chars → Chars
  | 0, l => l
  | _ + 1, [] => []
  | fuel + 1, c :: cs =>
    match matchBold (c :: cs) with
    | some (inner, rest) => repl inner ++ subBold repl fuel rest
    | none => c :: subBold repl fuel cs

def subItalPlain (repl : Chars → Chars) : Nat → Chars → Chars
  | 0, l => l
  | _ + 1, [] => []
  | fuel + 1, c :: cs =>
    match matchItalPlain (c :: cs) with
    | some (inner, rest) => repl inner ++ subItalPlain repl fuel rest
    | none => c :: subItalPlain repl fuel cs

def subItalLA (repl : Chars → Chars) : Nat → Option Char → Chars → Chars
  | 0, _, l => l
  | _ + 1, _, [] => []
  | fuel + 1, prev, c :: cs =>
    match matchItalLA prev (c :: cs) with
    | some (inner, rest) => repl inner ++ subItalLA repl fuel (some c) rest
    | none => c :: subItalLA repl fuel (some c) cs

def subCode (repl : Chars → Chars) : Nat → Chars → Chars
  | 0, l => l
  | _ + 1, [] => []
  | fuel + 1, c :: cs =>
    match matchCode (c :: cs) with
    | some (inner, rest) => repl inner ++ subCode repl fuel rest
    | none => c :: subCode repl fuel cs

def subLink (repl : Chars → Chars → Chars) : Nat → Chars → Chars
  | 0, l => l
  | _ + 1, [] => []
  | fuel + 1, c :: cs =>
    match matchLink (c :: cs) with
    | some (label, url, rest) => repl label url ++ subLink repl fuel rest
    | none => c :: subLink repl fuel cs

def subFence (repl : Chars → Chars) : Nat → Chars → Chars
  | 0, l => l
  | _ + 1, [] => []
  | fuel + 1, c :: cs =>
    match matchFence (c :: cs) with
    | some (body, rest) => repl body ++ subFence repl fuel rest
    | none => c :: subFence repl fuel cs

/-- `re.sub(r'^\x23{n} (.+)$', pre ++ group ++ post, text, flags=re.MULTILINE)`
for a fixed heading level `n`: a line-local rewrite. -/
def subHeadLine (n : Nat) (pre post : Chars) (l : Chars) : Chars :=
  joinNlChars ((splitNlChars l).map fun line =>
    if (List.replicate n '#' ++ [' ']).isPrefixOf line ∧ n + 2 ≤ line.length then
      pre ++ line.drop (n + 1) ++ post
    else line)

/-! ## markdown_to_plain_text (JSON-converter.py lines 127-134) -/

def plainHeading (l : Chars) : Chars := subHeadingPlain l.length true l
def plainBold (l : Chars) : Chars := subBold (fun i => i) l.length l
def plainItal (l : Chars) : Chars := subItalPlain (fun i => i) l.length l
def plainLink (l : Chars) : Chars := subLink (fun lab _ => lab) l.length l
def plainCode (l : Chars) : Chars := subCode (fun i => i) l.length l
def plainFence (l : Chars) : Chars := subFence (fun b => b) l.length l

def markdown_to_plain_text (s : String) : String :=
  ⟨plainFence (plainCode (plainLink (plainItal (plainBold (plainHeading s.data)))))⟩

/-! ## markdown_to_latex (JSON-converter.py lines 136-156) -/

def latexHeadings (l : Chars) : Chars :=
  subHeadLine 3 "\\subsubsection\x7b".data "\x7d".data
    (subHeadLine 2 "\\subsection\x7b".data "\x7d".data
      (subHeadLine 1 "\\section\x7b".data "\x7d".data l))
def latexBold (l : Chars) : Chars :=
  subBold (fun i => "\\textbf\x7b".data ++ i ++ "\x7d".data) l.length l
def latexItal (l : Chars) : Chars :=
  subItalLA (fun i => "\\textit\x7b".data ++ i ++ "\x7d".data) l.length none l
def latexCode (l : Chars) : Chars :=
  subCode (fun i => "\\texttt\x7b".data ++ i ++ "\x7d".data) l.length l
def latexFence (l : Chars) : Chars :=
  subFence (fun b => "\\begin\x7bverbatim\x7d\n".data ++ b ++ "\n\\end\x7bverbatim\x7d".data) l.length l
def latexLink (l : Chars) : Chars :=
  subLink (fun lab url => "\\href\x7b".data ++ url ++ "\x7d\x7b".data ++ lab ++ "\x7d".data) l.length l

def latexRewriteChars (l : Chars) : Chars :=
  latexLink (latexFence (latexCode (latexItal (latexBold (latexHeadings l)))))

def escapeLatexChar (c : Char) : Chars :=
  if c = '&' ∨ c = '_' ∨ c = '#' ∨ c = '%' ∨ c = '$' then ['\\', c]
  else if c = '^' then "\\textasciicircum\x7b\x7d".data
  else if c = '~' then "\\textasciitilde\x7b\x7d".data
  else [c]

/-- One line of the escaping loop of `markdown_to_latex`: a line whose
stripped form starts with a backslash is kept verbatim. -/
def latex_escape_line (l : Chars) : Chars :=
  if ['\\'].isPrefixOf (pyStripChars l) then l else l.flatMap escapeLatexChar

def markdown_to_latex (s : String) : String :=
  ⟨joinNlChars ((splitNlChars (latexRewriteChars s.data)).map latex_escape_line)⟩

/-! ## markdown_to_latex of the dual-language script (lines 203-287),
with its list environments and its all-lines escaping -/

def numberedItem (l : Chars) : Option Chars :=
  let l1 := l.dropWhile isPySpace
  let ds := l1.takeWhile (fun c => c.isDigit)
  if ds.isEmpty then none
  else
    match l1.drop ds.length with
    | c :: l3 =>
      if c = '.' then
        let sp := l3.takeWhile isPySpace
        if sp.isEmpty then none else some (l3.drop sp.length)
      else none
    | [] => none

def bulletItem (l : Chars) : Option Chars :=
  match l.dropWhile isPySpace with
  | c :: l2 =>
    if c = '*' ∨ c = '+' ∨ c = '-' then
      let sp := l2.takeWhile isPySpace
      if sp.isEmpty then none else some (l2.drop sp.length)
    else none
  | [] => none

def listPhaseAux : Bool → Bool → List Chars → List Chars
  | inIt, inEnum, [] =>
    (if inIt then ["\\end\x7bitemize\x7d".data] else [])
      ++ (if inEnum then ["\\end\x7benumerate\x7d".data] else [])
  | inIt, inEnum, l :: ls =>
    match numberedItem l with
    | some g =>
      (if inEnum then [] else ["\\begin\x7benumerate\x7d".data])
        ++ ("  \\item ".data ++ g) :: listPhaseAux inIt true ls
    | none =>
      let closeE := if inEnum then ["\\end\x7benumerate\x7d".data] else []
      match bulletItem l with
      | some g =>
        closeE ++ (if inIt then [] else ["\\begin\x7bitemize\x7d".data])
          ++ ("  \\item ".data ++ g) :: listPhaseAux true false ls
      | none =>
        closeE ++ (if inIt then ["\\end\x7bitemize\x7d".data] else [])
          ++ l :: listPhaseAux false false ls

/-- Escaping line of the dual-language script: only verbatim-opening lines
are exempt; every other line (command lines included) is escaped. -/
def latex_escape_line_dual (l : Chars) : Chars :=
  if "\\begin\x7bverbatim\x7d".data.isPrefixOf (pyStripChars l) then l
  else l.flatMap escapeLatexChar

def markdown_to_latex_dual (s : String) (use_persian_mode : Bool) : String :=
  let t := latexRewriteChars s.data
  let t := joinNlChars (listPhaseAux false false (splitNlChars t))
  if use_persian_mode then ⟨t⟩
  else ⟨joinNlChars ((splitNlChars t).map latex_escape_line_dual)⟩

/-! ## markdown_to_html (JSON-converter.py lines 158-185) -/

def htmlHeadings (l : Chars) : Chars :=
  subHeadLine 6 "<h6>".data "</h6>".data
    (subHeadLine 5 "<h5>".data "</h5>".data
      (subHeadLine 4 "<h4>".data "</h4>".data
        (subHeadLine 3 "<h3>".data "</h3>".data
          (subHeadLine 2 "<h2>".data "</h2>".data
            (subHeadLine 1 "<h1>".data "</h1>".data l)))))
def htmlFence (l : Chars) : Chars :=
  subFence (fun b => "<pre><code>".data ++ b ++ "</code></pre>".data) l.length l
def htmlBold (l : Chars) : Chars :=
  subBold (fun i => "<strong>".data ++ i ++ "</strong>".data) l.length l
def htmlItal (l : Chars) : Chars :=
  subItalLA (fun i => "<em>".data ++ i ++ "</em>".data) l.length none l
def htmlCode (l : Chars) : Chars :=
  subCode (fun i => "<code>".data ++ i ++ "</code>".data) l.length l
def htmlLink (l : Chars) : Chars :=
  subLink (fun lab url => "<a href=\"".data ++ url ++ "\">".data ++ lab ++ "</a>".data) l.length l

/-- Python `text.split('\n\n')`: leftmost, non-overlapping. -/
def splitPara : Chars → List Chars
  | [] => [[]]
  | '\n' :: '\n' :: cs => [] :: splitPara cs
  | c :: cs =>
    match splitPara cs with
    | [] => [[c]]
    | p :: ps => (c :: p) :: ps

def startsHtmlBlock (p : Chars) : Bool :=
  ['<', 'h'].isPrefixOf (pyStripChars p) || ['<', 'p', 'r', 'e'].isPrefixOf (pyStripChars p)

def htmlParaPhase (l : Chars) : Chars :=
  joinNlChars ((splitPara l).filterMap fun p =>
    if (pyStripChars p).isEmpty then none
    else if startsHtmlBlock p then some p
    else some ("<p>".data ++ (p.flatMap fun c => if c = '\n' then "<br>\n".data else [c]) ++ "</p>".data))

def markdown_to_html (s : String) : String :=
  ⟨htmlParaPhase (htmlLink (htmlCode (htmlItal (htmlBold (htmlFence (htmlHeadings s.data))))))⟩

/-! ## add_markdown_to_docx (JSON-converter.py lines 187-201) -/

inductive RunStyle
  | bold
  | italic
  | mono
  | plain
deriving DecidableEq

structure DocxRun where
  text : String
  style : RunStyle
deriving DecidableEq

inductive DocxBlock
  | heading : Nat → String → DocxBlock
  | para : List DocxRun → DocxBlock
deriving DecidableEq

/-- `\*\*.*?\*\*` or `__.*?__` inner text: zero or more non-newline
characters, closed by the first `dd`. -/
def scanInner2z (d : Char) : Chars → Chars → Option (Chars × Chars)
  | acc, c1 :: c2 :: cs =>
    if c1 = d ∧ c2 = d then some (acc.reverse, cs)
    else if c1 = '\n' then none
    else scanInner2z d (c1 :: acc) (c2 :: cs)
  | _, _ => none

/-- `` `[^`]*?` `` inner text: zero or more non-backtick characters. -/
def scanInner1z (d : Char) : Chars → Chars → Option (Chars × Chars)
  | _, [] => none
  | acc, c :: cs => if c = d then some (acc.reverse, cs) else scanInner1z d (c :: acc) cs

/-- One alternative of the `re.split` pattern of `add_markdown_to_docx` at
the current position; returns the whole matched separator text. -/
def matchDocxSep (prev : Option Char) : Chars → Option (Chars × Chars)
  | [] => none
  | c :: cs =>
    if c = '*' ∧ cs.head? = some '*' then
      (scanInner2z '*' [] cs.tail).map fun p => ('*' :: '*' :: (p.1 ++ ['*', '*']), p.2)
    else if c = '_' ∧ cs.head? = some '_' then
      (scanInner2z '_' [] cs.tail).map fun p => ('_' :: '_' :: (p.1 ++ ['_', '_']), p.2)
    else if c = '*' then
      if prev = some '*' then none
      else (scanItalLA '*' [] cs).map fun p => ('*' :: (p.1 ++ ['*']), p.2)
    else if c = '_' then
      if prev = some '_' then none
      else (scanItalLA '_' [] cs).map fun p => ('_' :: (p.1 ++ ['_']), p.2)
    else if c = '`' then
      (scanInner1z '`' [] cs).map fun p => ('`' :: (p.1 ++ ['`']), p.2)
    else none

/-- `re.split` with a single capturing group: pieces and separators, in
order, empty pieces included. -/
def docxSplitParts : Nat → Option Char → Chars → Chars → List String
  | 0, _, acc, l => [⟨acc.reverse ++ l⟩]
  | _ + 1, _, acc, [] => [⟨acc.reverse⟩]
  | fuel + 1, prev, acc, c :: cs =>
    match matchDocxSep prev (c :: cs) with
    | some (sep, rest) =>
      String.mk acc.reverse :: String.mk sep :: docxSplitParts fuel (some (sep.reverse.headD c)) [] rest
    | none => docxSplitParts fuel (some c) (c :: acc) cs

def classifyRun (p : String) : DocxRun :=
  let l := p.data
  if (['*', '*'].isPrefixOf l ∧ ['*', '*'].isSuffixOf l)
      ∨ (['_', '_'].isPrefixOf l ∧ ['_', '_'].isSuffixOf l) then
    ⟨⟨(l.drop 2).take ((l.drop 2).length - 2)⟩, RunStyle.bold⟩
  else if (['*'].isPrefixOf l ∧ ['*'].isSuffixOf l)
      ∨ (['_'].isPrefixOf l ∧ ['_'].isSuffixOf l) then
    ⟨⟨(l.drop 1).take ((l.drop 1).length - 1)⟩, RunStyle.italic⟩
  else if ['`'].isPrefixOf l ∧ ['`'].isSuffixOf l then
    ⟨⟨(l.drop 1).take ((l.drop 1).length - 1)⟩, RunStyle.mono⟩
  else ⟨p, RunStyle.plain⟩

def add_markdown_to_docx (text : String) : List DocxBlock :=
  (splitNlChars text.data).filterMap fun lraw =>
    let l := pyStripChars lraw
    if l.isEmpty then none
    else if ['#', ' '].isPrefixOf l then some (DocxBlock.heading 1 ⟨l.drop 2⟩)
    else if ['#', '#', ' '].isPrefixOf l then some (DocxBlock.heading 2 ⟨l.drop 3⟩)
    else if ['#', '#', '#', ' '].isPrefixOf l then some (DocxBlock.heading 3 ⟨l.drop 4⟩)
    else some (DocxBlock.para ((docxSplitParts l.length none [] l).map classifyRun))

/-! ## split_content_by_h1 (JSON-converter.py lines 203-211 and the
dual-language variant, lines 326-336) -/

structure PySection where
  title : Option String
  content : String
deriving DecidableEq

def titleOf (l : Chars) : String := ⟨pyStripChars (l.drop 2)⟩

def splitH1Aux : List Chars → List Chars → String → List PySection
  | [], cur, tt => [⟨some tt, ⟨joinNlChars cur⟩⟩]
  | l :: ls, cur, tt =>
    if isH1 l then PySection.mk (some tt) ⟨joinNlChars cur⟩ :: splitH1Aux ls [l] (titleOf l)
    else splitH1Aux ls (cur ++ [l]) tt

def splitH1Pre : List Chars → List PySection
  | [] => []
  | l :: ls => if isH1 l then splitH1Aux ls [l] (titleOf l) else splitH1Pre ls

def split_content_by_h1 (t : String) : List PySection :=
  splitH1Pre (splitNlChars t.data)

def split_content_by_h1_dual (t : String) : List PySection :=
  if (splitH1Pre (splitNlChars t.data)).isEmpty then [⟨none, t⟩]
  else splitH1Pre (splitNlChars t.data)

/-- The lines of the sections' contents, in order. -/
def sectionsLines (ss : List PySection) : List Chars :=
  ss.flatMap fun s => splitNlChars s.content.data

/-- The contents of the sections, joined back with newlines. -/
def joinSections (ss : List PySection) : String :=
  ⟨joinNlChars (ss.map fun s => s.content.data)⟩

/-! ## The EPUB chapter loop (JSON-converter.py lines 280-295) -/

structure PyNote where
  date : String
  text : String
deriving DecidableEq

structure SecEntry where
  date : String
  title : Option String
  content : String
deriving DecidableEq

structure EpubChapter where
  title : String
  content : String
deriving DecidableEq

def h1_sections (notes : List PyNote) : List SecEntry :=
  notes.flatMap fun n => (split_content_by_h1 n.text).map fun s => ⟨n.date, s.title, s.content⟩

/-- `section['content'].split('\n', 1)[-1]`. -/
def content_without_h1 (s : String) : String :=
  if s.data.contains '\n' then ⟨(s.data.dropWhile (fun c => c != '\n')).tail⟩ else s

def epubChapters (notes : List PyNote) : List EpubChapter :=
  if (h1_sections notes).isEmpty then
    notes.map fun n =>
      ⟨"Entry " ++ n.date, "<h1>Entry " ++ n.date ++ "</h1>\n" ++ markdown_to_html n.text⟩
  else
    (h1_sections notes).map fun s =>
      ⟨s.title.getD "",
        "<h2>" ++ s.title.getD "" ++ "</h2><p><strong>Date: " ++ s.date ++ "</strong></p>\n"
          ++ markdown_to_html (content_without_h1 s.content)⟩

/-! ## Lemmas: newline splitting and joining -/

lemma splitNlChars_ne_nil (l : Chars) : splitNlChars l ≠ [] := by
  induction l with
  | nil => simp [splitNlChars]
  | cons c cs ih =>
    by_cases hc : c = '\n'
    · simp [splitNlChars, hc]
    · simp only [splitNlChars, if_neg hc]
      cases h : splitNlChars cs with
      | nil => simp
      | cons p ps => simp

lemma joinNl_cons (p : Chars) (ps : List Chars) (h : ps ≠ []) :
    joinNlChars (p :: ps) = p ++ '\n' :: joinNlChars ps := by
  cases ps with
  | nil => exact absurd rfl h
  | cons q qs => rfl

lemma join_split (l : Chars) : joinNlChars (splitNlChars l) = l := by
  induction l with
  | nil => rfl
  | cons c cs ih =>
    by_cases hc : c = '\n'
    · subst hc
      rw [show splitNlChars ('\n' :: cs) = [] :: splitNlChars cs from by simp [splitNlChars]]
      rw [joinNl_cons _ _ (splitNlChars_ne_nil cs)]
      simp [ih]
    · simp only [splitNlChars, if_neg hc]
      cases h : splitNlChars cs with
      | nil => exact absurd h (splitNlChars_ne_nil cs)
      | cons p ps =>
        rw [h] at ih
        cases ps with
        | nil =>
          simp only [joinNlChars] at ih ⊢
          simp [ih]
        | cons q qs =>
          rw [joinNl_cons _ _ (by simp)] at ih
          rw [joinNl_cons _ _ (by simp)]
          simp only [List.cons_append]
          rw [ih]

lemma splitNl_no_nl (p : Chars) (h : '\n' ∉ p) : splitNlChars p = [p] := by
  induction p with
  | nil => rfl
  | cons c cs ih =>
    rw [List.mem_cons] at h
    push_neg at h
    obtain ⟨h1, h2⟩ := h
    simp only [splitNlChars, if_neg (Ne.symm h1)]
    rw [ih h2]

lemma splitNl_append_nl (p r : Chars) (h : '\n' ∉ p) :
    splitNlChars (p ++ '\n' :: r) = p :: splitNlChars r := by
  induction p with
  | nil => simp [splitNlChars]
  | cons c cs ih =>
    rw [List.mem_cons] at h
    push_neg at h
    obtain ⟨h1, h2⟩ := h
    rw [List.cons_append]
    simp only [splitNlChars, if_neg (Ne.symm h1)]
    rw [ih h2]

lemma splitNl_join : ∀ Ls : List Chars, Ls ≠ [] → (∀ p ∈ Ls, '\n' ∉ p) →
    splitNlChars (joinNlChars Ls) = Ls := by
  intro Ls
  induction Ls with
  | nil => intro h _; exact absurd rfl h
  | cons p ps ih =>
    intro _ hf
    cases ps with
    | nil => simpa [joinNlChars] using splitNl_no_nl p (hf p (by simp))
    | cons q qs =>
      rw [joinNl_cons _ _ (by simp)]
      rw [splitNl_append_nl _ _ (hf p (by simp))]
      rw [ih (by simp) (fun x hx => hf x (List.mem_cons_of_mem _ hx))]

lemma mem_splitNl_no_nl : ∀ l p, p ∈ splitNlChars l → '\n' ∉ p := by
  intro l
  induction l with
  | nil =>
    intro p hp
    simp only [splitNlChars] at hp
    rcases List.mem_singleton.mp hp with h
    simp [h]
  | cons c cs ih =>
    intro p hp
    by_cases hc : c = '\n'
    · simp only [splitNlChars, if_pos hc] at hp
      rcases List.mem_cons.mp hp with h | h
      · simp [h]
      · exact ih p h
    · simp only [splitNlChars, if_neg hc] at hp
      cases h : splitNlChars cs with
      | nil => exact absurd h (splitNlChars_ne_nil cs)
      | cons q qs =>
        rw [h] at hp
        rcases List.mem_cons.mp hp with h1 | h1
        · subst h1
          intro hmem
          rcases List.mem_cons.mp hmem with h2 | h2
          · exact hc h2.symm
          · exact ih q (by rw [h]; exact List.mem_cons_self q qs) h2
        · exact ih p (by rw [h]; exact List.mem_cons_of_mem q h1)

lemma joinNl_append : ∀ a b : List Chars, a ≠ [] → b ≠ [] →
    joinNlChars (a ++ b) = joinNlChars a ++ '\n' :: joinNlChars b := by
  intro a
  induction a with
  | nil => intro b h _; exact absurd rfl h
  | cons p ps ih =>
    intro b _ hb
    cases ps with
    | nil =>
      rw [List.singleton_append, joinNl_cons _ _ hb]
      simp [joinNlChars]
    | cons q qs =>
      rw [List.cons_append, joinNl_cons p ((q :: qs) ++ b) (by simp)]
      rw [ih b (by simp) hb]
      rw [joinNl_cons p (q :: qs) (by simp)]
      simp [List.append_assoc]

/-! ## Lemmas: the H1 segmenter -/

lemma splitH1Aux_ne_nil : ∀ ls cur tt, splitH1Aux ls cur tt ≠ [] := by
  intro ls
  induction ls with
  | nil => intro cur tt; simp [splitH1Aux]
  | cons l ls ih =>
    intro cur tt
    simp only [splitH1Aux]
    split
    · simp
    · exact ih _ _

lemma splitH1Aux_join : ∀ ls cur tt, cur ≠ [] →
    joinNlChars ((splitH1Aux ls cur tt).map fun s => s.content.data) = joinNlChars (cur ++ ls) := by
  intro ls
  induction ls with
  | nil =>
    intro cur tt _
    simp [splitH1Aux, joinNlChars]
  | cons l ls ih =>
    intro cur tt hcur
    by_cases hl : isH1 l = true
    · simp only [splitH1Aux, if_pos hl]
      rw [List.map_cons]
      rw [joinNl_cons _ _ (by simp [splitH1Aux_ne_nil])]
      rw [ih [l] (titleOf l) (by simp)]
      rw [joinNl_append cur (l :: ls) hcur (by simp)]
      rfl
    · simp only [splitH1Aux, if_neg hl]
      exact (ih (cur ++ [l]) tt (by simp)).trans (by simp)

lemma splitH1Aux_lines : ∀ ls cur tt, cur ≠ [] →
    (∀ p ∈ cur, '\n' ∉ p) → (∀ p ∈ ls, '\n' ∉ p) →
    sectionsLines (splitH1Aux ls cur tt) = cur ++ ls := by
  intro ls
  induction ls with
  | nil =>
    intro cur tt hne hcur _
    simp only [splitH1Aux, sectionsLines, List.flatMap_cons, List.flatMap_nil, List.append_nil]
    simpa using splitNl_join cur hne hcur
  | cons l ls ih =>
    intro cur tt hne hcur hls
    by_cases hl : isH1 l = true
    · simp only [splitH1Aux, if_pos hl, sectionsLines, List.flatMap_cons]
      have hrec := ih [l] (titleOf l) (by simp)
        (by intro q hq; rw [List.mem_singleton] at hq; rw [hq]; exact hls l (by simp))
        (fun q hq => hls q (List.mem_cons_of_mem _ hq))
      simp only [sectionsLines] at hrec
      rw [hrec]
      have hcurlines : splitNlChars (String.mk (joinNlChars cur)).data = cur :=
        splitNl_join cur hne hcur
      rw [hcurlines]
      simp
    · simp only [splitH1Aux, if_neg hl]
      rw [ih (cur ++ [l]) tt (by simp)
        (by
          intro q hq
          rcases List.mem_append.mp hq with h | h
          · exact hcur q h
          · rw [List.mem_singleton] at h; rw [h]; exact hls l (by simp))
        (fun q hq => hls q (List.mem_cons_of_mem _ hq))]
      simp

lemma splitH1Pre_nil : ∀ ls, (∀ l ∈ ls, isH1 l = false) → splitH1Pre ls = [] := by
  intro ls
  induction ls with
  | nil => intro _; rfl
  | cons l ls ih =>
    intro h
    simp only [splitH1Pre]
    rw [if_neg (by simp [h l (by simp)])]
    exact ih fun x hx => h x (List.mem_cons_of_mem _ hx)

lemma splitH1Pre_lines : ∀ ls, (∀ p ∈ ls, '\n' ∉ p) →
    sectionsLines (splitH1Pre ls) = ls.dropWhile (fun l => !(isH1 l)) := by
  intro ls
  induction ls with
  | nil => intro _; simp [splitH1Pre, sectionsLines]
  | cons l ls ih =>
    intro h
    simp only [splitH1Pre]
    by_cases hl : isH1 l = true
    · rw [if_pos hl, List.dropWhile_cons]
      simp only [hl, Bool.not_true, Bool.false_eq_true, if_false]
      have := splitH1Aux_lines ls [l] (titleOf l) (by simp)
        (by intro q hq; rw [List.mem_singleton] at hq; rw [hq]; exact h l (by simp))
        (fun q hq => h q (List.mem_cons_of_mem _ hq))
      simpa using this
    · have hl' : isH1 l = false := by simpa using hl
      rw [if_neg (by simp [hl']), List.dropWhile_cons]
      simp only [hl', Bool.not_false, if_true]
      exact ih fun p hp => h p (List.mem_cons_of_mem _ hp)

lemma dropWhile_length_le {α : Type} (p : α → Bool) : ∀ l : List α,
    (l.dropWhile p).length ≤ l.length := by
  intro l
  induction l with
  | nil => simp
  | cons a as ih =>
    rw [List.dropWhile_cons]
    by_cases h : p a = true
    · simp only [h, if_true]
      exact Nat.le_succ_of_le ih
    · simp [h]

lemma h1_sections_nil (notes : List PyNote)
    (h : ∀ n ∈ notes, ∀ l ∈ splitNlChars n.text.data, isH1 l = false) :
    h1_sections notes = [] := by
  unfold h1_sections
  rw [List.flatMap_eq_nil_iff]
  intro n hn
  have : split_content_by_h1 n.text = [] := splitH1Pre_nil _ (h n hn)
  rw [this]
  rfl

/-! ## Claim theorems -/

/-- Claim C1, counterexample: for the input `"x\n\x23 T\nb"` the segmenter drops
the leading line, so concatenating the returned contents does not rebuild the
original text. -/
theorem C1_counterexample :
    joinSections (split_content_by_h1 "x\n# T\nb") ≠ "x\n# T\nb"
      ∧ joinSections (split_content_by_h1 "x\n# T\nb") = "# T\nb" := by
  decide

/-- Claim C1, amended: when the first line of the text is a level-1 heading,
joining the contents of the sections returned by `split_content_by_h1` with
newlines rebuilds the original text exactly. -/
theorem C1_amended_join (t : String)
    (h : isH1 ((splitNlChars t.data).headI) = true) :
    joinSections (split_content_by_h1 t) = t := by
  cases hl : splitNlChars t.data with
  | nil => exact absurd hl (splitNlChars_ne_nil _)
  | cons l0 rest =>
    rw [hl] at h
    simp only [List.headI] at h
    unfold joinSections split_content_by_h1
    rw [hl]
    simp only [splitH1Pre, if_pos h]
    rw [splitH1Aux_join rest [l0] (titleOf l0) (by simp)]
    have hcons : ([l0] ++ rest) = l0 :: rest := rfl
    rw [hcons, ← hl, join_split]

theorem C1_amended_join_witness :
    joinSections (split_content_by_h1 "# A\nx\n# B\ny") = "# A\nx\n# B\ny" :=
  C1_amended_join _ (by decide)

/-- Claim C7, counterexample: on an input with no level-1 heading, the
segmenter of JSON-converter.py returns the empty list, not one section with
absent title. -/
theorem C7_counterexample :
    split_content_by_h1 "plain body" = []
      ∧ split_content_by_h1 "plain body" ≠ [{ title := none, content := "plain body" }] := by
  decide

/-- Claim C7, amended: on text with no level-1 heading line, the segmenter of
JSON-converter.py (and of the third script) returns no sections, while the
dual-language variant returns exactly one section with absent title whose
content is the whole text. -/
theorem C7_amended_variants (t : String)
    (h : ∀ l ∈ splitNlChars t.data, isH1 l = false) :
    split_content_by_h1 t = []
      ∧ split_content_by_h1_dual t = [{ title := none, content := t }] := by
  have h1 : splitH1Pre (splitNlChars t.data) = [] := splitH1Pre_nil _ h
  refine ⟨h1, ?_⟩
  unfold split_content_by_h1_dual
  rw [h1]
  simp

theorem C7_amended_variants_witness :
    split_content_by_h1 "hello\nworld" = []
      ∧ split_content_by_h1_dual "hello\nworld" = [{ title := none, content := "hello\nworld" }] :=
  C7_amended_variants _ (by decide)

/-- Claim C8: with a non-empty note list in which no note text contains a
level-1 heading line, the EPUB loop produces exactly one chapter per note, in
note order, titled `Entry <date>`. -/
theorem C8_epub_fallback (notes : List PyNote) (_hne : notes ≠ [])
    (h : ∀ n ∈ notes, ∀ l ∈ splitNlChars n.text.data, isH1 l = false) :
    (epubChapters notes).map (fun c => c.title) = notes.map (fun n => "Entry " ++ n.date)
      ∧ (epubChapters notes).length = notes.length := by
  have hs : h1_sections notes = [] := h1_sections_nil notes h
  unfold epubChapters
  rw [hs]
  refine ⟨?_, ?_⟩ <;> simp [List.map_map]

theorem C8_epub_fallback_witness :
    (epubChapters [⟨"2024-01-01", "hello"⟩, ⟨"2024-01-02", "world"⟩]).map (fun c => c.title)
        = [PyNote.mk "2024-01-01" "hello", PyNote.mk "2024-01-02" "world"].map
            (fun n => "Entry " ++ n.date)
      ∧ (epubChapters [⟨"2024-01-01", "hello"⟩, ⟨"2024-01-02", "world"⟩]).length
        = ([PyNote.mk "2024-01-01" "hello", PyNote.mk "2024-01-02" "world"] : List PyNote).length :=
  C8_epub_fallback _ (by decide) (by decide)

/-- Claim C10: if the text contains a level-1 heading but its first line is
not one, the lines before the first heading appear in no returned section:
the sections' lines are exactly the lines from the first heading on, and in
particular they are not all of the input lines. -/
theorem C10_prefix_dropped (t : String)
    (hhead : isH1 ((splitNlChars t.data).headI) = false)
    (_hex : (splitNlChars t.data).any isH1 = true) :
    sectionsLines (split_content_by_h1 t)
        = (splitNlChars t.data).dropWhile (fun l => !(isH1 l))
      ∧ sectionsLines (split_content_by_h1 t) ≠ splitNlChars t.data := by
  have hdw := splitH1Pre_lines (splitNlChars t.data) (fun p hp => mem_splitNl_no_nl _ p hp)
  refine ⟨hdw, ?_⟩
  show sectionsLines (splitH1Pre (splitNlChars t.data)) ≠ splitNlChars t.data
  rw [hdw]
  cases hl : splitNlChars t.data with
  | nil => exact absurd hl (splitNlChars_ne_nil _)
  | cons l0 rest =>
    rw [hl] at hhead
    simp only [List.headI] at hhead
    rw [List.dropWhile_cons]
    simp only [hhead, Bool.not_false, if_true]
    intro heq
    have hlen := congrArg List.length heq
    simp only [List.length_cons] at hlen
    have hle := dropWhile_length_le (fun l => !(isH1 l)) rest
    omega

theorem C10_prefix_dropped_witness :
    sectionsLines (split_content_by_h1 "intro\n# T\nbody")
        = (splitNlChars ("intro\n# T\nbody" : String).data).dropWhile (fun l => !(isH1 l))
      ∧ sectionsLines (split_content_by_h1 "intro\n# T\nbody")
        ≠ splitNlChars ("intro\n# T\nbody" : String).data :=
  C10_prefix_dropped _ (by decide) (by decide)

/-! ## Lemmas: every plain-text rule shortens or preserves length -/

lemma takeWhile_dropWhile_length (p : Char → Bool) (l : Chars) :
    (l.takeWhile p).length + (l.dropWhile p).length = l.length := by
  have h := congrArg List.length (List.takeWhile_append_dropWhile p l)
  rw [List.length_append] at h
  exact h

lemma scanInner1_length (d : Char) : ∀ l acc inner rest,
    scanInner1 d acc l = some (inner, rest) → inner.length + rest.length ≤ acc.length + l.length := by
  intro l
  induction l with
  | nil => intro acc inner rest h; simp [scanInner1] at h
  | cons c cs ih =>
    intro acc inner rest h
    simp only [scanInner1] at h
    by_cases h1 : acc ≠ [] ∧ c = d
    · rw [if_pos h1] at h
      simp only [Option.some.injEq, Prod.mk.injEq] at h
      obtain ⟨hi, hr⟩ := h
      subst hi; subst hr
      simp only [List.length_reverse, List.length_cons]
      omega
    · rw [if_neg h1] at h
      by_cases h2 : c = '\n'
      · rw [if_pos h2] at h; exact absurd h (by simp)
      · rw [if_neg h2] at h
        have := ih (c :: acc) inner rest h
        simp only [List.length_cons] at this ⊢
        omega

lemma scanInner2_length (d : Char) : ∀ l acc inner rest,
    scanInner2 d acc l = some (inner, rest) → inner.length + rest.length ≤ acc.length + l.length := by
  intro l
  induction l with
  | nil => intro acc inner rest h; simp [scanInner2] at h
  | cons c ls ih =>
    intro acc inner rest h
    cases ls with
    | nil => simp [scanInner2] at h
    | cons c2 cs =>
      simp only [scanInner2] at h
      by_cases h1 : acc ≠ [] ∧ c = d ∧ c2 = d
      · rw [if_pos h1] at h
        simp only [Option.some.injEq, Prod.mk.injEq] at h
        obtain ⟨hi, hr⟩ := h
        subst hi; subst hr
        simp only [List.length_reverse, List.length_cons]
        omega
      · rw [if_neg h1] at h
        by_cases h2 : c = '\n'
        · rw [if_pos h2] at h; exact absurd h (by simp)
        · rw [if_neg h2] at h
          have := ih (c :: acc) inner rest h
          simp only [List.length_cons] at this ⊢
          omega

lemma scanLabel_length : ∀ l acc lab url rest,
    scanLabel acc l = some (lab, url, rest) →
      lab.length + url.length + rest.length ≤ acc.length + l.length := by
  intro l
  induction l with
  | nil => intro acc lab url rest h; simp [scanLabel] at h
  | cons c cs ih =>
    intro acc lab url rest h
    simp only [scanLabel] at h
    by_cases h1 : c = ']' ∧ acc ≠ [] ∧ cs.head? = some '('
    · rw [if_pos h1] at h
      cases hm : scanInner1 ')' [] cs.tail with
      | some pr =>
        rw [hm] at h
        obtain ⟨url', rest'⟩ := pr
        simp only [Option.some.injEq, Prod.mk.injEq] at h
        obtain ⟨hl, hu, hr⟩ := h
        subst hl; subst hu; subst hr
        have := scanInner1_length ')' cs.tail [] url' rest' hm
        have htail : cs.tail.length ≤ cs.length := by
          cases cs <;> simp
        simp only [List.length_reverse, List.length_nil, List.length_cons] at this ⊢
        omega
      | none =>
        rw [hm] at h
        have := ih (c :: acc) lab url rest h
        simp only [List.length_cons] at this ⊢
        omega
    · rw [if_neg h1] at h
      by_cases h2 : c = '\n'
      · rw [if_pos h2] at h; exact absurd h (by simp)
      · rw [if_neg h2] at h
        have := ih (c :: acc) lab url rest h
        simp only [List.length_cons] at this ⊢
        omega

lemma dropToNl_length : ∀ l r, dropToNl l = some r → r.length + 1 ≤ l.length := by
  intro l
  induction l with
  | nil => intro r h; simp [dropToNl] at h
  | cons c cs ih =>
    intro r h
    simp only [dropToNl] at h
    by_cases h1 : c = '\n'
    · rw [if_pos h1] at h
      simp only [Option.some.injEq] at h
      subst h
      simp
    · rw [if_neg h1] at h
      have := ih r h
      simp only [List.length_cons]
      omega

lemma findFenceClose_length : ∀ l acc body rest,
    findFenceClose acc l = some (body, rest) → body.length + rest.length ≤ acc.length + l.length := by
  intro l
  induction l with
  | nil => intro acc body rest h; simp [findFenceClose] at h
  | cons c cs ih =>
    intro acc body rest h
    simp only [findFenceClose] at h
    by_cases h1 : c = '\n' ∧ cs.take 3 = ['`', '`', '`']
    · rw [if_pos h1] at h
      simp only [Option.some.injEq, Prod.mk.injEq] at h
      obtain ⟨hb, hr⟩ := h
      subst hb; subst hr
      have hd : (cs.drop 3).length = cs.length - 3 := List.length_drop 3 cs
      simp only [List.length_reverse, List.length_cons]
      omega
    · rw [if_neg h1] at h
      have := ih (c :: acc) body rest h
      simp only [List.length_cons] at this ⊢
      omega


lemma headingTail_length (w r1 inner rest : Chars)
    (h : headingTail w r1 = some (inner, rest)) :
    (r1 ≠ [] ∧ inner.length + rest.length = r1.length)
      ∨ inner.length + rest.length + 1 ≤ w.length := by
  unfold headingTail at h
  by_cases h1 : r1.isEmpty
  · rw [if_pos h1] at h
    simp only at h
    by_cases h2 : w.length - (w.reverse.takeWhile (fun c => c == '\n')).length < 2
    · rw [if_pos h2] at h; exact absurd h (by simp)
    · rw [if_neg h2] at h
      simp only [Option.some.injEq, Prod.mk.injEq] at h
      obtain ⟨hi, hr⟩ := h
      subst hi; subst hr
      right
      have h3 : ((w.drop (w.length - (w.reverse.takeWhile (fun c => c == '\n')).length - 1)).take 1).length ≤ 1 := by
        simp [List.length_take]
      have h4 : (w.drop (w.length - (w.reverse.takeWhile (fun c => c == '\n')).length)).length
          = w.length - (w.length - (w.reverse.takeWhile (fun c => c == '\n')).length) := by
        simp
      omega
  · rw [if_neg h1] at h
    simp only [Option.some.injEq, Prod.mk.injEq] at h
    obtain ⟨hi, hr⟩ := h
    subst hi; subst hr
    left
    refine ⟨by simpa using h1, ?_⟩
    exact takeWhile_dropWhile_length _ r1

lemma matchHeadingPlain_length (l inner rest : Chars)
    (h : matchHeadingPlain l = some (inner, rest)) : inner.length + rest.length ≤ l.length := by
  simp only [matchHeadingPlain] at h
  by_cases h1 : (l.takeWhile (fun c => c == '#')).length = 0
      ∨ 6 < (l.takeWhile (fun c => c == '#')).length
  · rw [if_pos h1] at h; exact absurd h (by simp)
  · rw [if_neg h1] at h
    set n := (l.takeWhile (fun c => c == '#')).length with hn
    set w := (l.drop n).takeWhile isPySpace with hw
    by_cases h2 : w.isEmpty
    · rw [if_pos h2] at h; exact absurd h (by simp)
    · rw [if_neg h2] at h
      have h3 := headingTail_length w ((l.drop n).drop w.length) inner rest h
      have hna : n ≤ l.length := by
        rw [hn]
        have := takeWhile_dropWhile_length (fun c => c == '#') l
        omega
      have hn1 : 1 ≤ n := by
        push_neg at h1
        omega
      have hwl : w.length ≤ (l.drop n).length := by
        rw [hw]
        have := takeWhile_dropWhile_length isPySpace (l.drop n)
        omega
      have hdl : (l.drop n).length = l.length - n := by simp
      have hr1 : ((l.drop n).drop w.length).length = (l.drop n).length - w.length := by
        simp only [List.length_drop]
      rcases h3 with ⟨_, heq⟩ | hlt
      · omega
      · omega

lemma matchBold_length (l inner rest : Chars) (h : matchBold l = some (inner, rest)) :
    inner.length + rest.length ≤ l.length := by
  cases l with
  | nil => simp [matchBold] at h
  | cons c ls =>
    cases ls with
    | nil => simp [matchBold] at h
    | cons c2 cs =>
      simp only [matchBold] at h
      by_cases h1 : c = '*' ∧ c2 = '*'
      · rw [if_pos h1] at h
        have := scanInner2_length '*' cs [] inner rest h
        simp only [List.length_nil, List.length_cons] at this ⊢
        omega
      · rw [if_neg h1] at h
        by_cases h2 : c = '_' ∧ c2 = '_'
        · rw [if_pos h2] at h
          have := scanInner2_length '_' cs [] inner rest h
          simp only [List.length_nil, List.length_cons] at this ⊢
          omega
        · rw [if_neg h2] at h; exact absurd h (by simp)

lemma matchItalPlain_length (l inner rest : Chars) (h : matchItalPlain l = some (inner, rest)) :
    inner.length + rest.length ≤ l.length := by
  cases l with
  | nil => simp [matchItalPlain] at h
  | cons c cs =>
    simp only [matchItalPlain] at h
    by_cases h1 : c = '*'
    · rw [if_pos h1] at h
      have := scanInner1_length '*' cs [] inner rest h
      simp only [List.length_nil, List.length_cons] at this ⊢
      omega
    · rw [if_neg h1] at h
      by_cases h2 : c = '_'
      · rw [if_pos h2] at h
        have := scanInner1_length '_' cs [] inner rest h
        simp only [List.length_nil, List.length_cons] at this ⊢
        omega
      · rw [if_neg h2] at h; exact absurd h (by simp)

lemma matchCode_length (l inner rest : Chars) (h : matchCode l = some (inner, rest)) :
    inner.length + rest.length ≤ l.length := by
  cases l with
  | nil => simp [matchCode] at h
  | cons c cs =>
    simp only [matchCode] at h
    by_cases h1 : c = '`'
    · rw [if_pos h1] at h
      have := scanInner1_length '`' cs [] inner rest h
      simp only [List.length_nil, List.length_cons] at this ⊢
      omega
    · rw [if_neg h1] at h; exact absurd h (by simp)

lemma matchLink_length (l lab url rest : Chars) (h : matchLink l = some (lab, url, rest)) :
    lab.length + url.length + rest.length ≤ l.length := by
  cases l with
  | nil => simp [matchLink] at h
  | cons c cs =>
    simp only [matchLink] at h
    by_cases h1 : c = '['
    · rw [if_pos h1] at h
      have := scanLabel_length cs [] lab url rest h
      simp only [List.length_nil, List.length_cons] at this ⊢
      omega
    · rw [if_neg h1] at h; exact absurd h (by simp)

lemma matchFence_length (l body rest : Chars) (h : matchFence l = some (body, rest)) :
    body.length + rest.length ≤ l.length := by
  unfold matchFence at h
  by_cases h1 : l.take 3 = ['`', '`', '`']
  · rw [if_pos h1] at h
    cases hd : dropToNl (l.drop 3) with
    | none => rw [hd] at h; exact absurd h (by simp)
    | some afterNl =>
      rw [hd] at h
      have h2 := dropToNl_length (l.drop 3) afterNl hd
      have h3 := findFenceClose_length afterNl [] body rest h
      have h4 : (l.drop 3).length = l.length - 3 := List.length_drop 3 l
      simp only [List.length_nil] at h3
      omega
  · rw [if_neg h1] at h; exact absurd h (by simp)

lemma subHeadingPlain_length : ∀ fuel b l, (subHeadingPlain fuel b l).length ≤ l.length := by
  intro fuel
  induction fuel with
  | zero => intro b l; simp [subHeadingPlain]
  | succ f ih =>
    intro b l
    cases l with
    | nil => simp [subHeadingPlain]
    | cons c cs =>
      simp only [subHeadingPlain]
      by_cases hb : b = true
      · rw [if_pos hb]
        cases hm : matchHeadingPlain (c :: cs) with
        | none =>
          simp only [List.length_cons]
          exact Nat.succ_le_succ (ih (c == '\n') cs)
        | some pr =>
          obtain ⟨g, rest⟩ := pr
          have h1 := matchHeadingPlain_length (c :: cs) g rest hm
          have h2 := ih false rest
          simp only [List.length_append, List.length_cons] at h1 ⊢
          omega
      · rw [if_neg hb]
        simp only [List.length_cons]
        exact Nat.succ_le_succ (ih (c == '\n') cs)

lemma subBold_length (repl : Chars → Chars) (hrepl : ∀ i, (repl i).length ≤ i.length) :
    ∀ fuel l, (subBold repl fuel l).length ≤ l.length := by
  intro fuel
  induction fuel with
  | zero => intro l; simp [subBold]
  | succ f ih =>
    intro l
    cases l with
    | nil => simp [subBold]
    | cons c cs =>
      simp only [subBold]
      cases hm : matchBold (c :: cs) with
      | none =>
        simp only [List.length_cons]
        exact Nat.succ_le_succ (ih cs)
      | some pr =>
        obtain ⟨inner, rest⟩ := pr
        have h1 := matchBold_length (c :: cs) inner rest hm
        have h2 := ih rest
        have h3 := hrepl inner
        simp only [List.length_append, List.length_cons] at h1 ⊢
        omega

lemma subItalPlain_length (repl : Chars → Chars) (hrepl : ∀ i, (repl i).length ≤ i.length) :
    ∀ fuel l, (subItalPlain repl fuel l).length ≤ l.length := by
  intro fuel
  induction fuel with
  | zero => intro l; simp [subItalPlain]
  | succ f ih =>
    intro l
    cases l with
    | nil => simp [subItalPlain]
    | cons c cs =>
      simp only [subItalPlain]
      cases hm : matchItalPlain (c :: cs) with
      | none =>
        simp only [List.length_cons]
        exact Nat.succ_le_succ (ih cs)
      | some pr =>
        obtain ⟨inner, rest⟩ := pr
        have h1 := matchItalPlain_length (c :: cs) inner rest hm
        have h2 := ih rest
        have h3 := hrepl inner
        simp only [List.length_append, List.length_cons] at h1 ⊢
        omega

lemma subCode_length (repl : Chars → Chars) (hrepl : ∀ i, (repl i).length ≤ i.length) :
    ∀ fuel l, (subCode repl fuel l).length ≤ l.length := by
  intro fuel
  induction fuel with
  | zero => intro l; simp [subCode]
  | succ f ih =>
    intro l
    cases l with
    | nil => simp [subCode]
    | cons c cs =>
      simp only [subCode]
      cases hm : matchCode (c :: cs) with
      | none =>
        simp only [List.length_cons]
        exact Nat.succ_le_succ (ih cs)
      | some pr =>
        obtain ⟨inner, rest⟩ := pr
        have h1 := matchCode_length (c :: cs) inner rest hm
        have h2 := ih rest
        have h3 := hrepl inner
        simp only [List.length_append, List.length_cons] at h1 ⊢
        omega

lemma subLink_length (repl : Chars → Chars → Chars)
    (hrepl : ∀ lab url, (repl lab url).length ≤ lab.length + url.length) :
    ∀ fuel l, (subLink repl fuel l).length ≤ l.length := by
  intro fuel
  induction fuel with
  | zero => intro l; simp [subLink]
  | succ f ih =>
    intro l
    cases l with
    | nil => simp [subLink]
    | cons c cs =>
      simp only [subLink]
      cases hm : matchLink (c :: cs) with
      | none =>
        simp only [List.length_cons]
        exact Nat.succ_le_succ (ih cs)
      | some pr =>
        obtain ⟨lab, url, rest⟩ := pr
        have h1 := matchLink_length (c :: cs) lab url rest hm
        have h2 := ih rest
        have h3 := hrepl lab url
        simp only [List.length_append, List.length_cons] at h1 ⊢
        omega

lemma subFence_length (repl : Chars → Chars) (hrepl : ∀ b, (repl b).length ≤ b.length) :
    ∀ fuel l, (subFence repl fuel l).length ≤ l.length := by
  intro fuel
  induction fuel with
  | zero => intro l; simp [subFence]
  | succ f ih =>
    intro l
    cases l with
    | nil => simp [subFence]
    | cons c cs =>
      simp only [subFence]
      cases hm : matchFence (c :: cs) with
      | none =>
        simp only [List.length_cons]
        exact Nat.succ_le_succ (ih cs)
      | some pr =>
        obtain ⟨body, rest⟩ := pr
        have h1 := matchFence_length (c :: cs) body rest hm
        have h2 := ih rest
        have h3 := hrepl body
        simp only [List.length_append, List.length_cons] at h1 ⊢
        omega

/-! ## Lemmas: the plain-text rules are the identity on marker-poor text -/

lemma scanInner1_none (d : Char) : ∀ l acc, d ∉ l → scanInner1 d acc l = none := by
  intro l
  induction l with
  | nil => intro acc _; rfl
  | cons c cs ih =>
    intro acc h
    rw [List.mem_cons] at h
    push_neg at h
    obtain ⟨h1, h2⟩ := h
    simp only [scanInner1]
    rw [if_neg (fun hcon => h1 hcon.2.symm)]
    by_cases hn : c = '\n'
    · rw [if_pos hn]
    · rw [if_neg hn]
      exact ih (c :: acc) h2

lemma count_tail_le (c : Char) (a : Char) (cs : Chars) :
    cs.count c ≤ (a :: cs).count c := by
  by_cases hc : a = c <;> simp [List.count_cons, hc]

lemma subHeadingPlain_id : ∀ fuel b l, '#' ∉ l → subHeadingPlain fuel b l = l := by
  intro fuel
  induction fuel with
  | zero => intro b l _; rfl
  | succ f ih =>
    intro b l h
    cases l with
    | nil => rfl
    | cons c cs =>
      rw [List.mem_cons] at h
      push_neg at h
      obtain ⟨h1, h2⟩ := h
      have hm : matchHeadingPlain (c :: cs) = none := by
        have hcb : (c == '#') = false := beq_eq_false_iff_ne.mpr (Ne.symm h1)
        have ht : (c :: cs).takeWhile (fun x => x == '#') = [] := by
          rw [List.takeWhile_cons, hcb]
          simp
        simp [matchHeadingPlain, ht]
      simp only [subHeadingPlain]
      by_cases hb : b = true
      · rw [if_pos hb, hm]
        rw [ih (c == '\n') cs h2]
      · rw [if_neg hb]
        rw [ih (c == '\n') cs h2]

lemma subBold_id (repl : Chars → Chars) :
    ∀ fuel l, l.count '*' ≤ 1 → '_' ∉ l → subBold repl fuel l = l := by
  intro fuel
  induction fuel with
  | zero => intro l _ _; rfl
  | succ f ih =>
    intro l hstar hund
    cases l with
    | nil => rfl
    | cons c cs =>
      have hm : matchBold (c :: cs) = none := by
        cases cs with
        | nil => rfl
        | cons c2 cs' =>
          simp only [matchBold]
          by_cases hA : c = '*' ∧ c2 = '*'
          · exfalso
            obtain ⟨hc, hc2⟩ := hA
            subst hc; subst hc2
            simp [List.count_cons] at hstar
          · rw [if_neg hA]
            by_cases hB : c = '_' ∧ c2 = '_'
            · exfalso
              obtain ⟨hc, _⟩ := hB
              subst hc
              exact hund (List.mem_cons_self _ _)
            · rw [if_neg hB]
      simp only [subBold, hm]
      rw [ih cs (le_trans (count_tail_le '*' c cs) hstar)
        (fun hmem => hund (List.mem_cons_of_mem _ hmem))]

lemma subItalPlain_id (repl : Chars → Chars) :
    ∀ fuel l, l.count '*' ≤ 1 → '_' ∉ l → subItalPlain repl fuel l = l := by
  intro fuel
  induction fuel with
  | zero => intro l _ _; rfl
  | succ f ih =>
    intro l hstar hund
    cases l with
    | nil => rfl
    | cons c cs =>
      have hm : matchItalPlain (c :: cs) = none := by
        simp only [matchItalPlain]
        by_cases hA : c = '*'
        · rw [if_pos hA]
          apply scanInner1_none
          subst hA
          have : cs.count '*' = 0 := by
            simp [List.count_cons] at hstar
            omega
          exact List.count_eq_zero.mp this
        · rw [if_neg hA]
          by_cases hB : c = '_'
          · exfalso
            subst hB
            exact hund (List.mem_cons_self _ _)
          · rw [if_neg hB]
      simp only [subItalPlain, hm]
      rw [ih cs (le_trans (count_tail_le '*' c cs) hstar)
        (fun hmem => hund (List.mem_cons_of_mem _ hmem))]

lemma subLink_id (repl : Chars → Chars → Chars) :
    ∀ fuel l, '[' ∉ l → subLink repl fuel l = l := by
  intro fuel
  induction fuel with
  | zero => intro l _; rfl
  | succ f ih =>
    intro l h
    cases l with
    | nil => rfl
    | cons c cs =>
      rw [List.mem_cons] at h
      push_neg at h
      obtain ⟨h1, h2⟩ := h
      have hm : matchLink (c :: cs) = none := by
        simp only [matchLink]
        rw [if_neg (Ne.symm h1)]
      simp only [subLink, hm]
      rw [ih cs h2]

lemma subCode_id (repl : Chars → Chars) :
    ∀ fuel l, '`' ∉ l → subCode repl fuel l = l := by
  intro fuel
  induction fuel with
  | zero => intro l _; rfl
  | succ f ih =>
    intro l h
    cases l with
    | nil => rfl
    | cons c cs =>
      rw [List.mem_cons] at h
      push_neg at h
      obtain ⟨h1, h2⟩ := h
      have hm : matchCode (c :: cs) = none := by
        simp only [matchCode]
        rw [if_neg (Ne.symm h1)]
      simp only [subCode, hm]
      rw [ih cs h2]

lemma subFence_id (repl : Chars → Chars) :
    ∀ fuel l, '`' ∉ l → subFence repl fuel l = l := by
  intro fuel
  induction fuel with
  | zero => intro l _; rfl
  | succ f ih =>
    intro l h
    cases l with
    | nil => rfl
    | cons c cs =>
      rw [List.mem_cons] at h
      push_neg at h
      obtain ⟨h1, h2⟩ := h
      have hm : matchFence (c :: cs) = none := by
        unfold matchFence
        rw [if_neg]
        intro heq
        rw [List.take_succ_cons] at heq
        have : c = '`' := (List.cons.injEq _ _ _ _ ▸ heq).1
        exact h1 this.symm
      simp only [subFence, hm]
      rw [ih cs h2]

/-- Combined: on text with no `#`, `_`, `[`, backtick and at most one `*`,
every plain-text rule is the identity. -/
lemma plain_id_chars (l : Chars) (hh : '#' ∉ l) (hu : '_' ∉ l) (hb : '[' ∉ l)
    (ht : '`' ∉ l) (hs : l.count '*' ≤ 1) :
    plainFence (plainCode (plainLink (plainItal (plainBold (plainHeading l))))) = l := by
  unfold plainHeading plainBold plainItal plainLink plainCode plainFence
  rw [subHeadingPlain_id _ _ _ hh]
  rw [subBold_id _ _ _ hs hu]
  rw [subItalPlain_id _ _ _ hs hu]
  rw [subLink_id _ _ _ hb]
  rw [subCode_id _ _ _ ht]
  rw [subFence_id _ _ _ ht]

/-- Claim C2, counterexample: the fence rules run after the emphasis and
inline-code rules, so a fenced block whose body holds bold markers is not
restored verbatim: the bold rule fires inside it and the inline-code rule
consumes the fence delimiters. -/
theorem C2_counterexample :
    markdown_to_latex "```\n**b**\n```" = "\\texttt\x7b`\x7d\n\\textbf\x7bb\x7d\n\\texttt\x7b`\x7d"
      ∧ markdown_to_latex "```\n**b**\n```" ≠ "\\begin\x7bverbatim\x7d\n**b**\n\\end\x7bverbatim\x7d" := by
  constructor
  · rfl
  · decide

/-- Claim C2, amended: in `markdown_to_plain_text` the fenced-code rule is
the last rule applied, after the heading, bold, italic, link and inline-code
rules, so characters inside a fence are subject to those earlier rewrites;
on a fence with a bold body, the bold markers are consumed by the bold rule
and the fence delimiters by the inline-code rule. -/
theorem C2_amended_order :
    (∀ t : String, markdown_to_plain_text t
        = String.mk (plainFence (plainCode (plainLink (plainItal (plainBold (plainHeading t.data)))))))
      ∧ markdown_to_plain_text "```\n**b**\n```" = "`\nb\n`" :=
  ⟨fun _ => rfl, by rfl⟩

/-- Claim C3, counterexample: the backticks of a fenced code block (a
recognized construct) survive into the plain-text output, because the
inline-code rule runs first and consumes the fence delimiters pairwise. -/
theorem C3_counterexample :
    markdown_to_plain_text "```\ncode\n```" = "`\ncode\n`"
      ∧ '`' ∈ (markdown_to_plain_text "```\ncode\n```").data := by
  constructor
  · rfl
  · decide

/-- Claim C3, amended: the length bound holds: for every input the
plain-text rewrite never grows the text. -/
theorem C3_amended_length (s : String) :
    (markdown_to_plain_text s).length ≤ s.length := by
  show (plainFence (plainCode (plainLink (plainItal (plainBold (plainHeading s.data)))))).length
    ≤ s.data.length
  unfold plainFence plainCode plainLink plainItal plainBold plainHeading
  refine le_trans (subFence_length _ (fun b => le_refl _) _ _) ?_
  refine le_trans (subCode_length _ (fun i => le_refl _) _ _) ?_
  refine le_trans (subLink_length _ (fun lab url => Nat.le_add_right _ _) _ _) ?_
  refine le_trans (subItalPlain_length _ (fun i => le_refl _) _ _) ?_
  refine le_trans (subBold_length _ (fun i => le_refl _) _ _) ?_
  exact subHeadingPlain_length _ _ _

/-- Claim C4, counterexample: the plain-text rewrite is not idempotent: on
`"**\x23 t**"` the first pass removes the bold markers and exposes a heading
line, which the second pass then rewrites. -/
theorem C4_counterexample :
    markdown_to_plain_text (markdown_to_plain_text "**# t**")
      ≠ markdown_to_plain_text "**# t**" := by
  decide

/-- Claim C4, amended: on strings containing none of the marker characters
the plain-text rewrite is the identity, hence idempotent there. -/
theorem C4_amended_idempotent (s : String)
    (h : ∀ c ∈ s.data, c ∉ (['#', '*', '_', '[', '`'] : List Char)) :
    markdown_to_plain_text (markdown_to_plain_text s) = markdown_to_plain_text s
      ∧ markdown_to_plain_text s = s := by
  have hh : '#' ∉ s.data := fun hmem => (h '#' hmem) (by simp)
  have hu : '_' ∉ s.data := fun hmem => (h '_' hmem) (by simp)
  have hb : '[' ∉ s.data := fun hmem => (h '[' hmem) (by simp)
  have ht : '`' ∉ s.data := fun hmem => (h '`' hmem) (by simp)
  have hs : s.data.count '*' ≤ 1 := by
    have hstar : '*' ∉ s.data := fun hmem => (h '*' hmem) (by simp)
    rw [List.count_eq_zero.mpr hstar]
    omega
  have hid : markdown_to_plain_text s = s := by
    show String.mk (plainFence (plainCode (plainLink (plainItal (plainBold (plainHeading s.data)))))) = s
    rw [plain_id_chars s.data hh hu hb ht hs]
  refine ⟨?_, hid⟩
  rw [hid]
  exact hid

theorem C4_amended_idempotent_witness :
    markdown_to_plain_text (markdown_to_plain_text "hello world")
        = markdown_to_plain_text "hello world"
      ∧ markdown_to_plain_text "hello world" = "hello world" :=
  C4_amended_idempotent "hello world" (by decide)

/-- Claim C5: the LaTeX rewrite of `"50% off & done_deal"` escapes the three
special characters and nothing else, in both scripts (Persian mode off). -/
theorem C5_latex_escaping :
    markdown_to_latex "50% off & done_deal" = "50\\% off \\& done\\_deal"
      ∧ markdown_to_latex_dual "50% off & done_deal" false = "50\\% off \\& done\\_deal" := by
  constructor
  · rfl
  · rfl

/-- Claim C6, counterexample: a `\href` generated in the middle of a line
whose stripped form does not start with a backslash is re-escaped: the
underscore of the URL argument becomes `\_`. -/
theorem C6_counterexample :
    markdown_to_latex "y [x](a_b)" = "y \\href\x7ba\\_b\x7d\x7bx\x7d"
      ∧ markdown_to_latex "y [x](a_b)" ≠ "y \\href\x7ba_b\x7d\x7bx\x7d" := by
  constructor
  · rfl
  · decide

/-- Claim C6, amended: the escaping phase works line by line, and it is
skipped exactly for lines whose stripped form starts with a backslash; such
lines are emitted unchanged, while commands in the middle of other lines are
escaped like ordinary text. -/
theorem C6_amended_line_skip :
    (∀ t : String, markdown_to_latex t
        = String.mk (joinNlChars ((splitNlChars (latexRewriteChars t.data)).map latex_escape_line)))
      ∧ ∀ l : Chars, ['\\'].isPrefixOf (pyStripChars l) = true → latex_escape_line l = l := by
  refine ⟨fun _ => rfl, ?_⟩
  intro l h
  unfold latex_escape_line
  rw [if_pos h]

theorem C6_amended_line_skip_witness :
    latex_escape_line ("\\section\x7bIntro\x7d" : String).data
      = ("\\section\x7bIntro\x7d" : String).data :=
  C6_amended_line_skip.2 _ (by decide)

/-- Claim C9: the rewriters are total functions of the input and unmatched
markers degrade to literal text: a string with at most one asterisk and no
other marker passes through the plain-text rewrite unchanged, and concrete
unmatched-marker inputs pass through the docx run splitter, the LaTeX
rewriter, and the HTML rewriter as literal characters. -/
theorem C9_unmatched_markers :
    (∀ s : String, '#' ∉ s.data → '_' ∉ s.data → '[' ∉ s.data → '`' ∉ s.data →
        s.data.count '*' ≤ 1 → markdown_to_plain_text s = s)
      ∧ add_markdown_to_docx "**a" = [DocxBlock.para [⟨"**a", RunStyle.plain⟩]]
      ∧ markdown_to_latex "`x" = "`x"
      ∧ markdown_to_html "*a" = "<p>*a</p>" := by
  refine ⟨?_, by rfl, by rfl, by rfl⟩
  intro s hh hu hb ht hs
  show String.mk (plainFence (plainCode (plainLink (plainItal (plainBold (plainHeading s.data)))))) = s
  rw [plain_id_chars s.data hh hu hb ht hs]

theorem C9_unmatched_markers_witness :
    markdown_to_plain_text "*" = "*" :=
  C9_unmatched_markers.1 "*" (by decide) (by decide) (by decide) (by decide) (by decide)
